import Mathlib

/-!
Verification of the graph-assembly / tagging / validation / export core of the
digital-intelligence-to-pid backend.

The definitions below are a shallow embedding of the Python sources:

  * backend/models.py            -> the data structures
  * backend/services/graph.py    -> bboxCenter2, sqDist, scanPool, pickText,
                                    removeFirst, assignNodeTags, assignEdgeLabels,
                                    scanNodes, closestNode, connectEdge, connectEdges,
                                    assembleGraph
  * backend/services/tagging.py  -> pyStrip, isaTagMatch, digitsVal, parse_isa_tag
  * backend/services/validate.py -> rule1, rule2, rule3, validate_graph
  * backend/services/export.py   -> to_dexpi_lite_json

Geometry convention: the Python code compares Euclidean distances computed with
np.sqrt on centers of the form x + w / 2.  Every use of a distance in the code
is a comparison, and both squaring and doubling are strictly monotone on
nonnegative reals, so the embedding works with squared distances of centers
scaled by 2, which keeps every quantity an integer.  A pixel threshold r
becomes the squared scaled threshold (2 * r) ^ 2: 100 px -> 40000 and
50 px -> 10000.  Exceptions (ValueError from tuple unpacking, IndexError from
indexing an empty polyline) are modelled by Option.none.
-/

namespace Pid

/-- models.py BoundingBox: integer top-left corner plus width and height. -/
structure BoundingBox where
  x : Int
  y : Int
  w : Int
  h : Int
deriving DecidableEq

/-- models.py Node.  The open attributes mapping holds opaque values; it is
modelled as an association list of strings, which no claim inspects. -/
structure Node where
  id : String
  kind : String
  type : Option String := none
  bbox : BoundingBox
  tag : Option String := none
  attributes : List (String × String) := []
  confidence : Option ℚ := none
deriving DecidableEq

/-- models.py Edge. -/
structure Edge where
  id : String
  kind : String
  polyline : List (Int × Int)
  direction : String := "unknown"
  endpoints : Option String × Option String
  label : Option String := none
  attributes : List (String × String) := []
  confidence : Option ℚ := none
deriving DecidableEq

/-- models.py Text. -/
structure Text where
  id : String
  content : String
  bbox : BoundingBox
deriving DecidableEq

/-- models.py Issue. -/
structure Issue where
  id : String
  severity : String
  message : String
  targetId : Option String := none
deriving DecidableEq

/-- models.py Graph. -/
structure Graph where
  nodes : List Node := []
  edges : List Edge := []
  issues : List Issue := []
  texts : List Text := []
deriving DecidableEq

/-- models.py InstrumentTag.  Python stores modifiers as a list of one-letter
strings; they are modelled as characters. -/
structure InstrumentTag where
  rawTag : String
  loopLetters : Option String := none
  loopNo : Option Nat := none
  modifiers : Option (List Char) := none
  isParsed : Bool := false
deriving DecidableEq

/-- Twice the value of graph.py get_bbox_center, so that the half-pixel
center x + w / 2 stays an integer. -/
def bboxCenter2 (b : BoundingBox) : Int × Int :=
  (2 * b.x + b.w, 2 * b.y + b.h)

/-- Squared Euclidean distance; graph.py calculate_distance takes np.sqrt of
this quantity, and every use is a comparison, preserved by sqrt. -/
def sqDist (p q : Int × Int) : Int :=
  (p.1 - q.1) * (p.1 - q.1) + (p.2 - q.2) * (p.2 - q.2)

/-- Squared scaled distance from a point to the center of a text bounding box. -/
def textSqDist (c : Int × Int) (t : Text) : Int :=
  sqDist c (bboxCenter2 t.bbox)

/-- The 100 px node-association threshold of graph.py in squared scaled units. -/
def nodeSqThr : Int := 40000

/-- The 50 px edge-label and endpoint threshold of graph.py in squared scaled
units. -/
def edgeSqThr : Int := 10000

/-- The closest_text / min_dist scan of graph.py (lines 29-39 and 50-58): walk
the unassigned pool keeping the best candidate seen so far; a candidate
replaces the best only when its distance is under the threshold and strictly
under the current minimum.  The accumulator none models min_dist = infinity. -/
def scanPool (c : Int × Int) (thr : Int) : List Text → Option (Text × Int) → Option (Text × Int)
  | [], best => best
  | t :: ts, none =>
      if textSqDist c t < thr then scanPool c thr ts (some (t, textSqDist c t))
      else scanPool c thr ts none
  | t :: ts, some (b, m) =>
      if textSqDist c t < thr ∧ textSqDist c t < m then
        scanPool c thr ts (some (t, textSqDist c t))
      else scanPool c thr ts (some (b, m))

/-- The full scan of the unassigned pool starting from min_dist = infinity. -/
def pickText (c : Int × Int) (thr : Int) (pool : List Text) : Option (Text × Int) :=
  scanPool c thr pool none

/-- Python list.remove: delete the first element equal to the argument. -/
def removeFirst (t : Text) : List Text → List Text
  | [] => []
  | u :: us => if u = t then us else u :: removeFirst t us

/-- Step 1 of assemble_graph (graph.py lines 27-43): for each node in order,
pick the closest unassigned text under 100 px, set node.tag to its content and
remove it from the pool. -/
def assignNodeTags : List Node → List Text → List Node × List Text
  | [], pool => ([], pool)
  | n :: ns, pool =>
      match pickText (bboxCenter2 n.bbox) nodeSqThr pool with
      | some (t, _) =>
          let rest := assignNodeTags ns (removeFirst t pool)
          ({ n with tag := some t.content } :: rest.1, rest.2)
      | none =>
          let rest := assignNodeTags ns pool
          (n :: rest.1, rest.2)

/-- Step 2 of assemble_graph (graph.py lines 46-62): p1, p2 = edge.polyline
raises ValueError unless the polyline has exactly two points (modelled by
none); otherwise pick the closest remaining text under 50 px from the midpoint
(p1 + p2 is twice the midpoint, matching the scaled-by-2 convention) and set
edge.label. -/
def assignEdgeLabels : List Edge → List Text → Option (List Edge × List Text)
  | [], pool => some ([], pool)
  | e :: es, pool =>
      match e.polyline with
      | [p1, p2] =>
          match pickText (p1.1 + p2.1, p1.2 + p2.2) edgeSqThr pool with
          | some (t, _) =>
              match assignEdgeLabels es (removeFirst t pool) with
              | none => none
              | some (es2, pool2) => some ({ e with label := some t.content } :: es2, pool2)
          | none =>
              match assignEdgeLabels es pool with
              | none => none
              | some (es2, pool2) => some (e :: es2, pool2)
      | _ => none

/-- The closest_start_node / closest_end_node scan of graph.py lines 72-83:
an unconditional nearest-neighbor search with strict improvement, no
threshold.  The source runs one loop updating the two accumulators for the
start point and the end point; the two updates are independent, so they are
modelled as two scans. -/
def scanNodes (p : Int × Int) : List Node → Option (Node × Int) → Option (Node × Int)
  | [], best => best
  | n :: ns, none => scanNodes p ns (some (n, sqDist p (bboxCenter2 n.bbox)))
  | n :: ns, some (b, m) =>
      if sqDist p (bboxCenter2 n.bbox) < m then
        scanNodes p ns (some (n, sqDist p (bboxCenter2 n.bbox)))
      else scanNodes p ns (some (b, m))

/-- The nearest-neighbor search over all nodes starting from infinity. -/
def closestNode (p : Int × Int) (nodes : List Node) : Option (Node × Int) :=
  scanNodes p nodes none

/-- Step 3 of assemble_graph for one edge (graph.py lines 66-90): resolve
polyline[0] and polyline[-1] against all nodes; assign an endpoint slot only
when the minimal distance is strictly under 50 px, otherwise leave the slot as
it was.  Indexing an empty polyline raises IndexError, modelled by none. -/
def connectEdge (nodes : List Node) (e : Edge) : Option Edge :=
  match e.polyline with
  | [] => none
  | p :: rest =>
      let q := rest.getLastD p
      let e1 :=
        match closestNode (2 * p.1, 2 * p.2) nodes with
        | some (n, m) =>
            if m < edgeSqThr then { e with endpoints := (some n.id, e.endpoints.2) } else e
        | none => e
      match closestNode (2 * q.1, 2 * q.2) nodes with
      | some (n, m) =>
          if m < edgeSqThr then some { e1 with endpoints := (e1.endpoints.1, some n.id) }
          else some e1
      | none => some e1

/-- Step 3 of assemble_graph over the whole edge list. -/
def connectEdges (nodes : List Node) : List Edge → Option (List Edge)
  | [] => some []
  | e :: es =>
      match connectEdge nodes e with
      | none => none
      | some e2 =>
          match connectEdges nodes es with
          | none => none
          | some es2 => some (e2 :: es2)

/-- graph.py assemble_graph: nodes are symbols ++ junctions, then the three
association steps run in order; any exception in a step is modelled by none.
The constructed Graph leaves issues at its empty default. -/
def assembleGraph (symbols : List Node) (lines : List Edge)
    (junctions : List Node) (texts : List Text) : Option Graph :=
  let tagged := assignNodeTags (symbols ++ junctions) texts
  match assignEdgeLabels lines tagged.2 with
  | none => none
  | some (edges, _) =>
      match connectEdges tagged.1 edges with
      | none => none
      | some edges2 => some { nodes := tagged.1, edges := edges2, texts := texts, issues := [] }

/-- Python whitespace for str.strip, restricted to the ASCII characters the
tag grammar can interact with. -/
def isPySpace (c : Char) : Bool :=
  c = ' ' || c = '\t' || c = '\n' || c = '\r' || c = '\x0b' || c = '\x0c'

/-- Python str.strip: drop leading and trailing whitespace. -/
def pyStrip (s : List Char) : List Char :=
  (((s.dropWhile isPySpace).reverse).dropWhile isPySpace).reverse

/-- ASCII uppercase letter, the character class written A-Z in ISA_TAG_REGEX
(code points 65-90). -/
def isUpperAZ (c : Char) : Bool :=
  65 ≤ c.toNat && c.toNat ≤ 90

/-- ASCII decimal digit, the character class written as a backslash-d in
ISA_TAG_REGEX (code points 48-57). -/
def isDigit09 (c : Char) : Bool :=
  48 ≤ c.toNat && c.toNat ≤ 57

/-- Anchored match of tagging.py ISA_TAG_REGEX against a character list,
returning the captured groups: loop letters, loop digits, and the optional
modifier suffix.  Because the three character classes are pairwise disjoint
and the hyphen belongs to none of them, the greedy regex match succeeds
exactly on the maximal-run decomposition computed here (backtracking to a
shorter run always leaves a character the next regex piece cannot consume). -/
def isaTagMatch (s : List Char) : Option (List Char × List Char × Option (List Char)) :=
  let letters1 := s.takeWhile isUpperAZ
  let rest1 := s.dropWhile isUpperAZ
  let rest2 := if rest1.head? = some '-' then rest1.tail else rest1
  let digits := rest2.takeWhile isDigit09
  let rest3 := rest2.dropWhile isDigit09
  let letters2 := rest3.takeWhile isUpperAZ
  let rest4 := rest3.dropWhile isUpperAZ
  if 1 ≤ letters1.length ∧ letters1.length ≤ 4 ∧ 1 ≤ digits.length ∧ digits.length ≤ 5
      ∧ letters2.length ≤ 4 ∧ rest4 = [] then
    some (letters1, digits, if letters2 = [] then none else some letters2)
  else none

/-- Python int applied to a run of decimal digits: the value, leading zeros
dropped. -/
def digitsVal (ds : List Char) : Nat :=
  ds.foldl (fun n c => 10 * n + (c.toNat - '0'.toNat)) 0

/-- tagging.py parse_isa_tag: normalize with strip().upper(), match
ISA_TAG_REGEX, and build the InstrumentTag.  A missing modifier group becomes
the empty list; on no match only rawTag and isParsed = false are set. -/
def parse_isa_tag (text : String) : InstrumentTag :=
  match isaTagMatch ((pyStrip text.toList).map Char.toUpper) with
  | none => { rawTag := text, isParsed := false }
  | some (l1, ds, m) =>
      { rawTag := text
        loopLetters := some (String.mk l1)
        loopNo := some (digitsVal ds)
        modifiers := some (match m with | none => [] | some l2 => l2)
        isParsed := true }

/-- Python truthiness of an Optional[str]: None and the empty string are
falsy, every other string is truthy. -/
def pyTruthy : Option String → Bool
  | none => false
  | some s => !(s = "")

/-- Rendering of an Optional[str] inside an f-string: None prints as None. -/
def pyShowOpt : Option String → String
  | none => "None"
  | some s => s

/-- Two-decimal rendering of a nonnegative rational, modelling the f-string
format specifier .2f applied to the confidence float (rounding to nearest,
exact on the two-decimal values the pipeline produces; no claim depends on
this string). -/
def fmt2 (q : ℚ) : String :=
  let n : Int := round (q * 100)
  let a : Nat := n.toNat
  toString (a / 100) ++ "." ++ (if a % 100 < 10 then "0" else "") ++ toString (a % 100)

/-- validate_graph rule 1 (validate.py lines 12-20): a process edge with a
falsy label yields a warn issue.  The counter threads through. -/
def rule1 : List Edge → Nat → List Issue × Nat
  | [], c => ([], c)
  | e :: es, c =>
      if !(pyTruthy e.label) && (e.kind = "process") then
        let rest := rule1 es (c + 1)
        ({ id := "issue_" ++ toString c, severity := "warn",
           message := "Process line is missing a label/tag.",
           targetId := some e.id } :: rest.1, rest.2)
      else rule1 es c

/-- Message of a dangling-start issue (validate.py line 29). -/
def msgDanglingStart : String :=
  "Line has a dangling start point (not connected to any node)."

/-- Message of a dangling-end issue (validate.py line 37). -/
def msgDanglingEnd : String :=
  "Line has a dangling end point (not connected to any node)."

/-- validate_graph rule 2 (validate.py lines 22-40): each falsy endpoint slot
of each edge yields its own warn issue, start slot checked first. -/
def rule2 : List Edge → Nat → List Issue × Nat
  | [], c => ([], c)
  | e :: es, c =>
      let s1 : List Issue × Nat :=
        if !(pyTruthy e.endpoints.1) then
          ([{ id := "issue_" ++ toString c, severity := "warn",
              message := msgDanglingStart, targetId := some e.id }], c + 1)
        else ([], c)
      let s2 : List Issue × Nat :=
        if !(pyTruthy e.endpoints.2) then
          ([{ id := "issue_" ++ toString s1.2, severity := "warn",
              message := msgDanglingEnd, targetId := some e.id }], s1.2 + 1)
        else ([], s1.2)
      let rest := rule2 es s2.2
      (s1.1 ++ s2.1 ++ rest.1, rest.2)

/-- validate_graph rule 3 (validate.py lines 43-52): equipment or instrument
nodes with a present confidence under 0.75 yield an info issue. -/
def rule3 : List Node → Nat → List Issue × Nat
  | [], c => ([], c)
  | n :: ns, c =>
      match n.confidence with
      | some q =>
          if (n.kind = "equipment" ∨ n.kind = "instrument") ∧ q < 3 / 4 then
            let rest := rule3 ns (c + 1)
            ({ id := "issue_" ++ toString c, severity := "info",
               message := "Low confidence symbol match (" ++ fmt2 q ++ ") for \x27"
                 ++ pyShowOpt n.type ++ "\x27.",
               targetId := some n.id } :: rest.1, rest.2)
          else rule3 ns c
      | none => rule3 ns c

/-- validate.py validate_graph: run the three rules with one counter starting
at zero, overwrite graph.issues with the produced list and return it.  The
mutation of the argument is modelled by returning the updated graph alongside
the issue list. -/
def validate_graph (g : Graph) : Graph × List Issue :=
  let r1 := rule1 g.edges 0
  let r2 := rule2 g.edges r1.2
  let r3 := rule3 g.nodes r2.2
  let issues := r1.1 ++ r2.1 ++ r3.1
  ({ g with issues := issues }, issues)

/-- models.py DexpiEquipment. -/
structure DexpiEquipment where
  id : String
  classRef : String
  bbox : BoundingBox
  tag : Option String := none
deriving DecidableEq

/-- models.py DexpiInstrument. -/
structure DexpiInstrument where
  id : String
  classRef : String
  bbox : BoundingBox
  tag : Option String := none
deriving DecidableEq

/-- models.py DexpiLine. -/
structure DexpiLine where
  id : String
  classRef : String
  polyline : List (Int × Int)
deriving DecidableEq

/-- models.py DexpiConnection. -/
structure DexpiConnection where
  from_node : String
  to_node : String
  line_id : String
deriving DecidableEq

/-- models.py DexpiExport. -/
structure DexpiExport where
  equipment : List DexpiEquipment := []
  instruments : List DexpiInstrument := []
  lines : List DexpiLine := []
  connections : List DexpiConnection := []
  issues : List Issue := []
deriving DecidableEq

/-- export.py to_dexpi_lite_json, up to the final model_dump_json
serialization, which the claims do not concern: the node loop sorts nodes into
equipment and instruments by kind, the edge loop emits one line entry per edge
and one connection entry per edge whose two endpoint ids are truthy, and the
issues section copies graph.issues. -/
def to_dexpi_lite_json (g : Graph) : DexpiExport :=
  { equipment :=
      (g.nodes.filter (fun n => n.kind = "equipment")).map (fun n =>
        { id := n.id, classRef := "placeholder/" ++ pyShowOpt n.type,
          bbox := n.bbox, tag := n.tag })
    instruments :=
      (g.nodes.filter (fun n => n.kind = "instrument")).map (fun n =>
        { id := n.id, classRef := "placeholder/" ++ pyShowOpt n.type,
          bbox := n.bbox, tag := n.tag })
    lines :=
      g.edges.map (fun e =>
        { id := e.id, classRef := "placeholder/" ++ e.kind ++ "_line",
          polyline := e.polyline })
    connections :=
      g.edges.filterMap (fun e =>
        if pyTruthy e.endpoints.1 && pyTruthy e.endpoints.2 then
          some { from_node := e.endpoints.1.getD "", to_node := e.endpoints.2.getD "",
                 line_id := e.id }
        else none)
    issues := g.issues }

/-!  Specification-side descriptions, written from the words of the spec and
the claims: a chosen text splits the pool into a strictly-farther part seen
earlier (first-seen tie-break), the chosen minimum, and a no-closer remainder;
node tagging and edge labelling are step relations consuming the pool in
iteration order. -/

/-- The claim-side selection rule for one scan of the unassigned pool: the
pool splits as pre ++ t :: post where t is strictly within the threshold, has
minimal distance (strictly smaller than everything before it, hence the
first-seen tie-break, and no larger than everything after it). -/
def ChosenSplit (c : Int × Int) (thr : Int) (pool pre post : List Text) (t : Text) : Prop :=
  pool = pre ++ t :: post ∧ textSqDist c t < thr ∧
    (∀ u ∈ pre, textSqDist c t < textSqDist c u) ∧
    (∀ u ∈ post, textSqDist c t ≤ textSqDist c u)

/-- The claim-side description of the text-to-node association: nodes are
visited in list order; a node either consumes the minimum-distance text
strictly under 100 px of its center (which disappears from the pool for every
later consumer) or, when no pool text is strictly under 100 px, is left
unchanged. -/
inductive NodeTagStep : List Node → List Text → List Node → List Text → Prop where
  | nil : (pool : List Text) → NodeTagStep [] pool [] pool
  | assign : (n : Node) → (ns : List Node) → (pool pre post : List Text) → (t : Text) →
      (ns2 : List Node) → (pool2 : List Text) →
      ChosenSplit (bboxCenter2 n.bbox) nodeSqThr pool pre post t →
      NodeTagStep ns (pre ++ post) ns2 pool2 →
      NodeTagStep (n :: ns) pool ({ n with tag := some t.content } :: ns2) pool2
  | skip : (n : Node) → (ns : List Node) → (pool : List Text) →
      (ns2 : List Node) → (pool2 : List Text) →
      (∀ u ∈ pool, ¬ textSqDist (bboxCenter2 n.bbox) u < nodeSqThr) →
      NodeTagStep ns pool ns2 pool2 →
      NodeTagStep (n :: ns) pool (n :: ns2) pool2

/-- The claim-side description of the text-to-edge association for edges whose
polyline has exactly two points: the midpoint comes from the first and the
last point (p1 + p2 is twice the midpoint in the scaled convention), the
threshold is a strict 50 px, and assigned texts leave the pool. -/
inductive EdgeLabelStep : List Edge → List Text → List Edge → List Text → Prop where
  | nil : (pool : List Text) → EdgeLabelStep [] pool [] pool
  | assign : (e : Edge) → (es : List Edge) → (p1 p2 : Int × Int) →
      (pool pre post : List Text) → (t : Text) → (es2 : List Edge) → (pool2 : List Text) →
      e.polyline = [p1, p2] →
      ChosenSplit (p1.1 + p2.1, p1.2 + p2.2) edgeSqThr pool pre post t →
      EdgeLabelStep es (pre ++ post) es2 pool2 →
      EdgeLabelStep (e :: es) pool ({ e with label := some t.content } :: es2) pool2
  | skip : (e : Edge) → (es : List Edge) → (p1 p2 : Int × Int) →
      (pool : List Text) → (es2 : List Edge) → (pool2 : List Text) →
      e.polyline = [p1, p2] →
      (∀ u ∈ pool, ¬ textSqDist (p1.1 + p2.1, p1.2 + p2.2) u < edgeSqThr) →
      EdgeLabelStep es pool es2 pool2 →
      EdgeLabelStep (e :: es) pool (e :: es2) pool2

/-- The claim-side description of one resolved endpoint slot (p is the scaled
polyline point): either no node is strictly within 50 px and the slot is null,
or the slot carries the id of a globally distance-minimal node strictly within
50 px. -/
def EndpointResolved (nodes : List Node) (p : Int × Int) (slot : Option String) : Prop :=
  (slot = none ∧ ∀ n ∈ nodes, ¬ sqDist p (bboxCenter2 n.bbox) < edgeSqThr) ∨
  (∃ n ∈ nodes, slot = some n.id ∧ sqDist p (bboxCenter2 n.bbox) < edgeSqThr ∧
    ∀ k ∈ nodes, sqDist p (bboxCenter2 n.bbox) ≤ sqDist p (bboxCenter2 k.bbox))

/-! Lemmas about the best-candidate scans. -/

theorem scanPool_acc_ne_none (c : Int × Int) (thr : Int) :
    ∀ (l : List Text) (x : Text × Int), scanPool c thr l (some x) ≠ none := by
  intro l
  induction l with
  | nil => intro x h; simp [scanPool] at h
  | cons u us ih =>
      intro x h
      obtain ⟨b, m⟩ := x
      simp only [scanPool] at h
      by_cases hc : textSqDist c u < thr ∧ textSqDist c u < m
      · rw [if_pos hc] at h
        exact ih _ h
      · rw [if_neg hc] at h
        exact ih _ h

theorem scanPool_some_spec (c : Int × Int) (thr : Int) :
    ∀ (l : List Text) (b : Text) (m : Int) (t : Text) (d : Int),
      scanPool c thr l (some (b, m)) = some (t, d) →
      (t = b ∧ d = m ∧ ∀ u ∈ l, ¬ (textSqDist c u < thr ∧ textSqDist c u < m)) ∨
      (∃ pre post, l = pre ++ t :: post ∧ d = textSqDist c t ∧ d < thr ∧ d < m ∧
        (∀ u ∈ pre, d < textSqDist c u) ∧ (∀ u ∈ post, d ≤ textSqDist c u)) := by
  intro l
  induction l with
  | nil =>
      intro b m t d h
      simp only [scanPool, Option.some.injEq, Prod.mk.injEq] at h
      exact Or.inl ⟨h.1.symm, h.2.symm, by simp⟩
  | cons u us ih =>
      intro b m t d h
      simp only [scanPool] at h
      by_cases hc : textSqDist c u < thr ∧ textSqDist c u < m
      · rw [if_pos hc] at h
        rcases ih u (textSqDist c u) t d h with ⟨h1, h2, h3⟩ |
            ⟨pre, post, hsp, hd, hthr, hm, hpre, hpost⟩
        · subst h1
          refine Or.inr ⟨[], us, by simp, h2, by rw [h2]; exact hc.1, by rw [h2]; exact hc.2,
            by simp, ?_⟩
          intro v hv
          have h4 := h3 v hv
          push_neg at h4
          rcases lt_or_le (textSqDist c v) thr with h5 | h5
          · rw [h2]; exact h4 h5
          · rw [h2]; exact le_of_lt (lt_of_lt_of_le hc.1 h5)
        · refine Or.inr ⟨u :: pre, post, by rw [hsp, List.cons_append], hd, hthr, lt_trans hm hc.2, ?_, hpost⟩
          intro v hv
          rcases List.mem_cons.mp hv with rfl | hv2
          · exact hm
          · exact hpre v hv2
      · rw [if_neg hc] at h
        rcases ih b m t d h with ⟨h1, h2, h3⟩ |
            ⟨pre, post, hsp, hd, hthr, hm, hpre, hpost⟩
        · refine Or.inl ⟨h1, h2, ?_⟩
          intro v hv
          rcases List.mem_cons.mp hv with rfl | hv2
          · exact hc
          · exact h3 v hv2
        · refine Or.inr ⟨u :: pre, post, by rw [hsp, List.cons_append], hd, hthr, hm, ?_, hpost⟩
          intro v hv
          rcases List.mem_cons.mp hv with heq | hv2
          · push_neg at hc
            rw [heq]
            rcases lt_or_le (textSqDist c u) thr with h4 | h4
            · exact lt_of_lt_of_le hm (hc h4)
            · exact lt_of_lt_of_le hthr h4
          · exact hpre v hv2

theorem pickText_some_spec (c : Int × Int) (thr : Int) :
    ∀ (l : List Text) (t : Text) (d : Int),
      pickText c thr l = some (t, d) →
      ∃ pre post, ChosenSplit c thr l pre post t ∧ d = textSqDist c t := by
  intro l
  induction l with
  | nil => intro t d h; simp [pickText, scanPool] at h
  | cons u us ih =>
      intro t d h
      simp only [pickText, scanPool] at h
      by_cases hc : textSqDist c u < thr
      · rw [if_pos hc] at h
        rcases scanPool_some_spec c thr us u (textSqDist c u) t d h with ⟨h1, h2, h3⟩ |
            ⟨pre, post, hsp, hd, hthr, hm, hpre, hpost⟩
        · refine ⟨[], us, ⟨by simp [h1], by rw [h1]; exact hc, by simp, ?_⟩,
            by rw [h1]; exact h2⟩
          intro v hv
          have h4 := h3 v hv
          push_neg at h4
          rw [h1]
          rcases lt_or_le (textSqDist c v) thr with h5 | h5
          · exact h4 h5
          · exact le_of_lt (lt_of_lt_of_le hc h5)
        · refine ⟨u :: pre, post, ⟨by rw [hsp, List.cons_append], by rw [← hd]; exact hthr, ?_, ?_⟩, hd⟩
          · intro v hv
            rcases List.mem_cons.mp hv with rfl | hv2
            · rw [← hd]; exact hm
            · rw [← hd]; exact hpre v hv2
          · intro v hv
            rw [← hd]
            exact hpost v hv
      · rw [if_neg hc] at h
        obtain ⟨pre, post, ⟨hsp, hthr, hpre, hpost⟩, hd⟩ := ih t d h
        refine ⟨u :: pre, post, ⟨by rw [hsp, List.cons_append], hthr, ?_, hpost⟩, hd⟩
        intro v hv
        rcases List.mem_cons.mp hv with rfl | hv2
        · exact lt_of_lt_of_le hthr (le_of_not_lt hc)
        · exact hpre v hv2

theorem pickText_none_spec (c : Int × Int) (thr : Int) :
    ∀ (l : List Text), pickText c thr l = none → ∀ u ∈ l, ¬ textSqDist c u < thr := by
  intro l
  induction l with
  | nil => simp
  | cons u us ih =>
      intro h v hv
      simp only [pickText, scanPool] at h
      by_cases hc : textSqDist c u < thr
      · rw [if_pos hc] at h
        exact absurd h (scanPool_acc_ne_none c thr us _)
      · rw [if_neg hc] at h
        rcases List.mem_cons.mp hv with rfl | hv2
        · exact hc
        · exact ih h v hv2

theorem removeFirst_append (t : Text) :
    ∀ (pre post : List Text), (∀ u ∈ pre, u ≠ t) →
      removeFirst t (pre ++ t :: post) = pre ++ post := by
  intro pre
  induction pre with
  | nil => intro post _; simp [removeFirst]
  | cons p ps ih =>
      intro post h
      have hp : p ≠ t := h p (by simp)
      have h2 : ∀ u ∈ ps, u ≠ t := fun u hu => h u (by simp [hu])
      show removeFirst t (p :: (ps ++ t :: post)) = p :: (ps ++ post)
      rw [removeFirst, if_neg hp, ih post h2]

/-- A chosen text is the first occurrence of its value in the pool, so the
Python list.remove call deletes exactly the chosen occurrence. -/
theorem removeFirst_of_chosen (c : Int × Int) (thr : Int)
    (pool pre post : List Text) (t : Text)
    (h : ChosenSplit c thr pool pre post t) :
    removeFirst t pool = pre ++ post := by
  obtain ⟨hsp, _, hpre, _⟩ := h
  rw [hsp]
  refine removeFirst_append t pre post ?_
  intro u hu heq
  subst heq
  exact absurd (hpre u hu) (lt_irrefl _)

/-- The text-to-node stage refines its claim-side description: nodes are
processed in list order and each consumes the first minimum-distance text
strictly under the threshold, if any. -/
theorem assignNodeTags_spec :
    ∀ (ns : List Node) (pool : List Text),
      NodeTagStep ns pool (assignNodeTags ns pool).1 (assignNodeTags ns pool).2 := by
  intro ns
  induction ns with
  | nil => intro pool; exact NodeTagStep.nil pool
  | cons n ns ih =>
      intro pool
      rcases hpick : pickText (bboxCenter2 n.bbox) nodeSqThr pool with _ | ⟨t, d⟩
      · have hno := pickText_none_spec (bboxCenter2 n.bbox) nodeSqThr pool hpick
        simp only [assignNodeTags, hpick]
        exact NodeTagStep.skip n ns pool _ _ hno (ih pool)
      · obtain ⟨pre, post, hch, hd⟩ :=
          pickText_some_spec (bboxCenter2 n.bbox) nodeSqThr pool t d hpick
        have hrm := removeFirst_of_chosen (bboxCenter2 n.bbox) nodeSqThr pool pre post t hch
        simp only [assignNodeTags, hpick, hrm]
        exact NodeTagStep.assign n ns pool pre post t _ _ hch (ih (pre ++ post))

/-- The text-to-edge stage succeeds exactly when every polyline has exactly
two points; the Python tuple unpacking raises ValueError otherwise. -/
theorem assignEdgeLabels_isSome_iff :
    ∀ (es : List Edge) (pool : List Text),
      (assignEdgeLabels es pool).isSome ↔ ∀ e ∈ es, e.polyline.length = 2 := by
  intro es
  induction es with
  | nil => intro pool; simp [assignEdgeLabels]
  | cons e es ih =>
      intro pool
      rcases hpl : e.polyline with _ | ⟨p1, rest⟩
      · simp only [assignEdgeLabels, hpl]
        constructor
        · intro h; simp at h
        · intro h
          have := h e (by simp)
          rw [hpl] at this
          simp at this
      · rcases rest with _ | ⟨p2, rest2⟩
        · simp only [assignEdgeLabels, hpl]
          constructor
          · intro h; simp at h
          · intro h
            have := h e (by simp)
            rw [hpl] at this
            simp at this
        · rcases rest2 with _ | ⟨p3, rest3⟩
          · simp only [assignEdgeLabels, hpl]
            rcases hpick : pickText (p1.1 + p2.1, p1.2 + p2.2) edgeSqThr pool with _ | ⟨t, d⟩
            · rcases hrec : assignEdgeLabels es pool with _ | ⟨es2, pool2⟩
              · simp only [hrec]
                constructor
                · intro h; simp at h
                · intro h
                  have h2 := (ih pool).mpr (fun x hx => h x (by simp [hx]))
                  rw [hrec] at h2
                  simp at h2
              · simp only [hrec]
                constructor
                · intro _
                  intro x hx
                  rcases List.mem_cons.mp hx with heq | hx2
                  · rw [heq, hpl]; rfl
                  · have h2 : (assignEdgeLabels es pool).isSome := by rw [hrec]; rfl
                    exact (ih pool).mp h2 x hx2
                · intro _; rfl
            · rcases hrec : assignEdgeLabels es (removeFirst t pool) with _ | ⟨es2, pool2⟩
              · simp only [hrec]
                constructor
                · intro h; simp at h
                · intro h
                  have h2 := (ih (removeFirst t pool)).mpr (fun x hx => h x (by simp [hx]))
                  rw [hrec] at h2
                  simp at h2
              · simp only [hrec]
                constructor
                · intro _
                  intro x hx
                  rcases List.mem_cons.mp hx with heq | hx2
                  · rw [heq, hpl]; rfl
                  · have h2 : (assignEdgeLabels es (removeFirst t pool)).isSome := by
                      rw [hrec]; rfl
                    exact (ih (removeFirst t pool)).mp h2 x hx2
                · intro _; rfl
          · simp only [assignEdgeLabels, hpl]
            constructor
            · intro h; simp at h
            · intro h
              have := h e (by simp)
              rw [hpl] at this
              simp at this

/-- The text-to-edge stage refines its claim-side description whenever it
succeeds. -/
theorem assignEdgeLabels_spec :
    ∀ (es : List Edge) (pool : List Text) (es2 : List Edge) (pool2 : List Text),
      assignEdgeLabels es pool = some (es2, pool2) → EdgeLabelStep es pool es2 pool2 := by
  intro es
  induction es with
  | nil =>
      intro pool es2 pool2 h
      simp only [assignEdgeLabels, Option.some.injEq, Prod.mk.injEq] at h
      rw [← h.1, ← h.2]
      exact EdgeLabelStep.nil pool
  | cons e es ih =>
      intro pool es2 pool2 h
      rcases hpl : e.polyline with _ | ⟨p1, rest⟩
      · simp only [assignEdgeLabels, hpl] at h
        exact Option.noConfusion h
      · rcases rest with _ | ⟨p2, rest2⟩
        · simp only [assignEdgeLabels, hpl] at h
          exact Option.noConfusion h
        · rcases rest2 with _ | ⟨p3, rest3⟩
          · simp only [assignEdgeLabels, hpl] at h
            rcases hpick : pickText (p1.1 + p2.1, p1.2 + p2.2) edgeSqThr pool with _ | ⟨t, d⟩
            · simp only [hpick] at h
              rcases hrec : assignEdgeLabels es pool with _ | ⟨es3, pool3⟩
              · simp only [hrec] at h
                exact Option.noConfusion h
              · simp only [hrec, Option.some.injEq, Prod.mk.injEq] at h
                rw [← h.1, ← h.2]
                have hno := pickText_none_spec (p1.1 + p2.1, p1.2 + p2.2) edgeSqThr pool hpick
                exact EdgeLabelStep.skip e es p1 p2 pool es3 pool3 hpl hno (ih pool es3 pool3 hrec)
            · simp only [hpick] at h
              rcases hrec : assignEdgeLabels es (removeFirst t pool) with _ | ⟨es3, pool3⟩
              · simp only [hrec] at h
                exact Option.noConfusion h
              · simp only [hrec, Option.some.injEq, Prod.mk.injEq] at h
                obtain ⟨pre, post, hch, hd⟩ :=
                  pickText_some_spec (p1.1 + p2.1, p1.2 + p2.2) edgeSqThr pool t d hpick
                have hrm := removeFirst_of_chosen (p1.1 + p2.1, p1.2 + p2.2) edgeSqThr
                  pool pre post t hch
                rw [hrm] at hrec
                rw [← h.1, ← h.2, ← hpl]
                exact EdgeLabelStep.assign e es p1 p2 pool pre post t es3 pool3 hpl hch
                  (ih (pre ++ post) es3 pool3 hrec)
          · simp only [assignEdgeLabels, hpl] at h
            exact Option.noConfusion h

/-- The text-to-edge stage only writes labels: id, kind, polyline, endpoints
and the rest of every edge survive unchanged, positionally. -/
theorem edgeLabelStep_shape :
    ∀ (es : List Edge) (pool : List Text) (es2 : List Edge) (pool2 : List Text),
      EdgeLabelStep es pool es2 pool2 →
      List.Forall₂ (fun (e x : Edge) => x.id = e.id ∧ x.kind = e.kind ∧
        x.polyline = e.polyline ∧ x.endpoints = e.endpoints) es es2 := by
  intro es pool es2 pool2 h
  induction h with
  | nil pool => exact List.Forall₂.nil
  | assign e es p1 p2 pool pre post t es2 pool2 hpl hch hrest ih =>
      exact List.Forall₂.cons ⟨rfl, rfl, rfl, rfl⟩ ih
  | skip e es p1 p2 pool es2 pool2 hpl hno hrest ih =>
      exact List.Forall₂.cons ⟨rfl, rfl, rfl, rfl⟩ ih

theorem scanNodes_acc_ne_none (p : Int × Int) :
    ∀ (l : List Node) (x : Node × Int), scanNodes p l (some x) ≠ none := by
  intro l
  induction l with
  | nil => intro x h; simp [scanNodes] at h
  | cons k ks ih =>
      intro x h
      obtain ⟨b, m⟩ := x
      simp only [scanNodes] at h
      by_cases hc : sqDist p (bboxCenter2 k.bbox) < m
      · rw [if_pos hc] at h
        exact ih _ h
      · rw [if_neg hc] at h
        exact ih _ h

theorem scanNodes_acc_spec (p : Int × Int) :
    ∀ (l : List Node) (b : Node) (m : Int) (n : Node) (d : Int),
      scanNodes p l (some (b, m)) = some (n, d) →
      ((n = b ∧ d = m) ∨ (n ∈ l ∧ d = sqDist p (bboxCenter2 n.bbox))) ∧ d ≤ m ∧
        ∀ k ∈ l, d ≤ sqDist p (bboxCenter2 k.bbox) := by
  intro l
  induction l with
  | nil =>
      intro b m n d h
      simp only [scanNodes, Option.some.injEq, Prod.mk.injEq] at h
      exact ⟨Or.inl ⟨h.1.symm, h.2.symm⟩, le_of_eq h.2.symm, by simp⟩
  | cons k ks ih =>
      intro b m n d h
      simp only [scanNodes] at h
      by_cases hc : sqDist p (bboxCenter2 k.bbox) < m
      · rw [if_pos hc] at h
        obtain ⟨h1, h2, h3⟩ := ih k (sqDist p (bboxCenter2 k.bbox)) n d h
        refine ⟨?_, le_of_lt (lt_of_le_of_lt h2 hc), ?_⟩
        · rcases h1 with ⟨he, hd⟩ | h1
          · exact Or.inr ⟨by simp [he], by rw [he]; exact hd⟩
          · exact Or.inr ⟨by simp [h1.1], h1.2⟩
        · intro j hj
          rcases List.mem_cons.mp hj with heq | hj2
          · rw [heq]; exact h2
          · exact h3 j hj2
      · rw [if_neg hc] at h
        obtain ⟨h1, h2, h3⟩ := ih b m n d h
        refine ⟨?_, h2, ?_⟩
        · rcases h1 with h1 | h1
          · exact Or.inl h1
          · exact Or.inr ⟨by simp [h1.1], h1.2⟩
        · intro j hj
          rcases List.mem_cons.mp hj with heq | hj2
          · rw [heq]; exact le_trans h2 (le_of_not_lt hc)
          · exact h3 j hj2

theorem closestNode_some_spec (p : Int × Int) :
    ∀ (l : List Node) (n : Node) (d : Int),
      closestNode p l = some (n, d) →
      n ∈ l ∧ d = sqDist p (bboxCenter2 n.bbox) ∧
        ∀ k ∈ l, d ≤ sqDist p (bboxCenter2 k.bbox) := by
  intro l
  cases l with
  | nil => intro n d h; simp [closestNode, scanNodes] at h
  | cons k ks =>
      intro n d h
      simp only [closestNode, scanNodes] at h
      obtain ⟨h1, h2, h3⟩ := scanNodes_acc_spec p ks k (sqDist p (bboxCenter2 k.bbox)) n d h
      refine ⟨?_, ?_, ?_⟩
      · rcases h1 with ⟨he, _⟩ | h1
        · simp [he]
        · simp [h1.1]
      · rcases h1 with ⟨he, hd⟩ | h1
        · rw [he]; exact hd
        · exact h1.2
      · intro j hj
        rcases List.mem_cons.mp hj with heq | hj2
        · rw [heq]; exact h2
        · exact h3 j hj2

theorem closestNode_eq_none (p : Int × Int) :
    ∀ (l : List Node), closestNode p l = none → l = [] := by
  intro l h
  cases l with
  | nil => rfl
  | cons k ks =>
      simp only [closestNode, scanNodes] at h
      exact absurd h (scanNodes_acc_ne_none p ks _)

/-- The endpoint-resolution step for one edge with a two-point polyline and
unresolved endpoint slots: it always succeeds, only its endpoints change, and
each slot satisfies the claim-side description. -/
theorem connectEdge_spec (nodes : List Node) (e : Edge) (p1 p2 : Int × Int)
    (hpl : e.polyline = [p1, p2]) (hep : e.endpoints = (none, none)) :
    ∃ e2, connectEdge nodes e = some e2 ∧ e2.id = e.id ∧ e2.kind = e.kind ∧
      e2.polyline = e.polyline ∧ e2.label = e.label ∧
      EndpointResolved nodes (2 * p1.1, 2 * p1.2) e2.endpoints.1 ∧
      EndpointResolved nodes (2 * p2.1, 2 * p2.2) e2.endpoints.2 := by
  have hq : ([p2] : List (Int × Int)).getLastD p1 = p2 := rfl
  rcases hs : closestNode (2 * p1.1, 2 * p1.2) nodes with _ | ⟨n1, m1⟩
  · have hnil := closestNode_eq_none _ _ hs
    subst hnil
    rcases ht : closestNode (2 * p2.1, 2 * p2.2) ([] : List Node) with _ | ⟨n2, m2⟩
    · refine ⟨e, ?_, rfl, rfl, rfl, rfl, ?_, ?_⟩
      · simp only [connectEdge, hpl, hq, hs, ht]
      · exact Or.inl ⟨by rw [hep], by simp⟩
      · exact Or.inl ⟨by rw [hep], by simp⟩
    · simp [closestNode, scanNodes] at ht
  · have hs2 := closestNode_some_spec _ _ _ _ hs
    rcases ht : closestNode (2 * p2.1, 2 * p2.2) nodes with _ | ⟨n2, m2⟩
    · have hnil := closestNode_eq_none _ _ ht
      subst hnil
      simp at hs2
    · have ht2 := closestNode_some_spec _ _ _ _ ht
      by_cases hm1 : m1 < edgeSqThr
      · by_cases hm2 : m2 < edgeSqThr
        · refine ⟨{ e with endpoints := (some n1.id, some n2.id) }, ?_, rfl, rfl, rfl, rfl, ?_, ?_⟩
          · simp only [connectEdge, hpl, hq, hs, ht, if_pos hm1, if_pos hm2]
          · exact Or.inr ⟨n1, hs2.1, rfl, by rw [← hs2.2.1]; exact hm1,
              fun k hk => by rw [← hs2.2.1]; exact hs2.2.2 k hk⟩
          · exact Or.inr ⟨n2, ht2.1, rfl, by rw [← ht2.2.1]; exact hm2,
              fun k hk => by rw [← ht2.2.1]; exact ht2.2.2 k hk⟩
        · refine ⟨{ e with endpoints := (some n1.id, e.endpoints.2) }, ?_, rfl, rfl, rfl, rfl, ?_, ?_⟩
          · simp only [connectEdge, hpl, hq, hs, ht, if_pos hm1, if_neg hm2]
          · exact Or.inr ⟨n1, hs2.1, rfl, by rw [← hs2.2.1]; exact hm1,
              fun k hk => by rw [← hs2.2.1]; exact hs2.2.2 k hk⟩
          · refine Or.inl ⟨by rw [hep], ?_⟩
            intro k hk hlt
            exact hm2 (lt_of_le_of_lt (ht2.2.2 k hk) hlt)
      · by_cases hm2 : m2 < edgeSqThr
        · refine ⟨{ e with endpoints := (e.endpoints.1, some n2.id) }, ?_, rfl, rfl, rfl, rfl, ?_, ?_⟩
          · simp only [connectEdge, hpl, hq, hs, ht, if_neg hm1, if_pos hm2]
          · refine Or.inl ⟨by rw [hep], ?_⟩
            intro k hk hlt
            exact hm1 (lt_of_le_of_lt (hs2.2.2 k hk) hlt)
          · exact Or.inr ⟨n2, ht2.1, rfl, by rw [← ht2.2.1]; exact hm2,
              fun k hk => by rw [← ht2.2.1]; exact ht2.2.2 k hk⟩
        · refine ⟨e, ?_, rfl, rfl, rfl, rfl, ?_, ?_⟩
          · simp only [connectEdge, hpl, hq, hs, ht, if_neg hm1, if_neg hm2]
          · refine Or.inl ⟨by rw [hep], ?_⟩
            intro k hk hlt
            exact hm1 (lt_of_le_of_lt (hs2.2.2 k hk) hlt)
          · refine Or.inl ⟨by rw [hep], ?_⟩
            intro k hk hlt
            exact hm2 (lt_of_le_of_lt (ht2.2.2 k hk) hlt)

/-- The endpoint-resolution step never fails on an edge whose polyline is
nonempty, whatever its endpoint slots hold. -/
theorem connectEdge_isSome (nodes : List Node) (e : Edge) (hne : e.polyline ≠ []) :
    (connectEdge nodes e).isSome := by
  rcases hpl : e.polyline with _ | ⟨p, rest⟩
  · exact absurd hpl hne
  · simp only [connectEdge, hpl]
    rcases ht : closestNode (2 * (rest.getLastD p).1, 2 * (rest.getLastD p).2) nodes
        with _ | ⟨n, m⟩
    · simp only [ht, Option.isSome_some]
    · simp only [ht]
      by_cases hm : m < edgeSqThr
      · rw [if_pos hm]; rfl
      · rw [if_neg hm]; rfl

theorem connectEdges_isSome (nodes : List Node) :
    ∀ (es : List Edge), (∀ e ∈ es, e.polyline ≠ []) → (connectEdges nodes es).isSome := by
  intro es
  induction es with
  | nil => intro _; rfl
  | cons e es ih =>
      intro h
      have h1 := connectEdge_isSome nodes e (h e (by simp))
      rcases hc : connectEdge nodes e with _ | e2
      · rw [hc] at h1; simp at h1
      · have h2 := ih (fun x hx => h x (by simp [hx]))
        rcases hr : connectEdges nodes es with _ | es2
        · rw [hr] at h2; simp at h2
        · simp only [connectEdges, hc, hr, Option.isSome_some]

theorem connectEdges_mem (nodes : List Node) :
    ∀ (es es2 : List Edge), connectEdges nodes es = some es2 →
      ∀ x ∈ es2, ∃ e ∈ es, connectEdge nodes e = some x := by
  intro es
  induction es with
  | nil =>
      intro es2 h x hx
      simp only [connectEdges, Option.some.injEq] at h
      rw [← h] at hx
      simp at hx
  | cons e es ih =>
      intro es2 h x hx
      rcases hc : connectEdge nodes e with _ | e2
      · rw [connectEdges, hc] at h; simp at h
      · rw [connectEdges, hc] at h
        rcases hr : connectEdges nodes es with _ | es3
        · rw [hr] at h; simp at h
        · rw [hr] at h
          simp only [Option.some.injEq] at h
          rw [← h] at hx
          rcases List.mem_cons.mp hx with heq | hx2
          · exact ⟨e, by simp, by rw [hc, heq]⟩
          · obtain ⟨e3, he3, hce3⟩ := ih es3 hr x hx2
            exact ⟨e3, by simp [he3], hce3⟩

/-- Inversion of a successful assemble_graph run into its three stages. -/
theorem assembleGraph_inv (symbols : List Node) (lines : List Edge)
    (junctions : List Node) (texts : List Text) (g : Graph)
    (h : assembleGraph symbols lines junctions texts = some g) :
    ∃ es1 pool2 es2,
      assignEdgeLabels lines (assignNodeTags (symbols ++ junctions) texts).2 =
        some (es1, pool2) ∧
      connectEdges (assignNodeTags (symbols ++ junctions) texts).1 es1 = some es2 ∧
      g = { nodes := (assignNodeTags (symbols ++ junctions) texts).1, edges := es2,
            texts := texts, issues := [] } := by
  rcases h1 : assignEdgeLabels lines (assignNodeTags (symbols ++ junctions) texts).2
      with _ | ⟨es1, pool2⟩
  · rw [assembleGraph] at h
    simp only [h1] at h
    exact Option.noConfusion h
  · rw [assembleGraph] at h
    simp only [h1] at h
    rcases h2 : connectEdges (assignNodeTags (symbols ++ junctions) texts).1 es1 with _ | es2
    · simp only [h2] at h
      exact Option.noConfusion h
    · simp only [h2, Option.some.injEq] at h
      exact ⟨es1, pool2, es2, rfl, h2, h.symm⟩

theorem forall2_mem_right {R : Edge → Edge → Prop} :
    ∀ {es es2 : List Edge}, List.Forall₂ R es es2 → ∀ x ∈ es2, ∃ e ∈ es, R e x := by
  intro es es2 h
  induction h with
  | nil => intro x hx; simp at hx
  | @cons a b l1 l2 hr hrest ih =>
      intro x hx
      rcases List.mem_cons.mp hx with heq | hx2
      · exact ⟨a, by simp, by rw [heq]; exact hr⟩
      · obtain ⟨e, he, her⟩ := ih x hx2
        exact ⟨e, by simp [he], her⟩

/-- assemble_graph succeeds whenever every polyline has exactly two points. -/
theorem assembleGraph_isSome (symbols : List Node) (lines : List Edge)
    (junctions : List Node) (texts : List Text)
    (h2 : ∀ e ∈ lines, e.polyline.length = 2) :
    ∃ g, assembleGraph symbols lines junctions texts = some g := by
  have hl := (assignEdgeLabels_isSome_iff lines
    (assignNodeTags (symbols ++ junctions) texts).2).mpr h2
  rcases h1 : assignEdgeLabels lines (assignNodeTags (symbols ++ junctions) texts).2
      with _ | ⟨es1, pool2⟩
  · rw [h1] at hl; simp at hl
  · have hstep := assignEdgeLabels_spec lines _ es1 pool2 h1
    have hsh := edgeLabelStep_shape lines _ es1 pool2 hstep
    have hne : ∀ x ∈ es1, x.polyline ≠ [] := by
      intro x hx
      obtain ⟨e, he, hR⟩ := forall2_mem_right hsh x hx
      rw [hR.2.2.1]
      intro hnil
      have h3 := h2 e he
      rw [hnil] at h3
      simp at h3
    have hc := connectEdges_isSome (assignNodeTags (symbols ++ junctions) texts).1 es1 hne
    rcases hcc : connectEdges (assignNodeTags (symbols ++ junctions) texts).1 es1 with _ | es2
    · rw [hcc] at hc; simp at hc
    · have hg : assembleGraph symbols lines junctions texts =
          some { nodes := (assignNodeTags (symbols ++ junctions) texts).1, edges := es2,
                 texts := texts, issues := [] } := by
        rw [assembleGraph]
        simp only [h1, hcc]
      exact ⟨_, hg⟩

/-! Lemmas about the tag parser. -/

/-- Claim-side decomposition witnessing a full anchored match of the tag
grammar: 1-4 uppercase letters, an optional hyphen, 1-5 digits, 0-4 uppercase
suffix letters, end of string. -/
@[reducible] def IsTagDecomp (s l1 ds l2 : List Char) (dash : Bool) : Prop :=
  s = l1 ++ ((if dash then ['-'] else []) ++ (ds ++ l2)) ∧
  (∀ c ∈ l1, isUpperAZ c) ∧ 1 ≤ l1.length ∧ l1.length ≤ 4 ∧
  (∀ c ∈ ds, isDigit09 c) ∧ 1 ≤ ds.length ∧ ds.length ≤ 5 ∧
  (∀ c ∈ l2, isUpperAZ c) ∧ l2.length ≤ 4

theorem digit_not_upper {c : Char} (h : isDigit09 c) : ¬ isUpperAZ c := by
  simp only [isDigit09, Bool.and_eq_true, decide_eq_true_eq] at h
  simp only [isUpperAZ, Bool.and_eq_true, decide_eq_true_eq, not_and]
  omega

theorem upper_not_digit {c : Char} (h : isUpperAZ c) : ¬ isDigit09 c := by
  simp only [isUpperAZ, Bool.and_eq_true, decide_eq_true_eq] at h
  simp only [isDigit09, Bool.and_eq_true, decide_eq_true_eq, not_and]
  omega

theorem digit_ne_dash {c : Char} (h : isDigit09 c) : c ≠ '-' := by
  intro heq
  rw [heq] at h
  simp [isDigit09] at h

theorem takeWhile_append_all {p : Char → Bool} :
    ∀ (l rest : List Char), (∀ c ∈ l, p c) →
      (∀ c cs, rest = c :: cs → ¬ p c) →
      (l ++ rest).takeWhile p = l ∧ (l ++ rest).dropWhile p = rest := by
  intro l
  induction l with
  | nil =>
      intro rest _ hrest
      constructor
      · rcases hr : rest with _ | ⟨c, cs⟩
        · rfl
        · rw [List.nil_append, List.takeWhile_cons, if_neg (hrest c cs hr)]
      · rcases hr : rest with _ | ⟨c, cs⟩
        · rfl
        · rw [List.nil_append, List.dropWhile_cons, if_neg (hrest c cs hr)]
  | cons a as ih =>
      intro rest hall hrest
      have ha : p a := hall a (by simp)
      obtain ⟨ih1, ih2⟩ := ih rest (fun c hc => hall c (by simp [hc])) hrest
      constructor
      · rw [List.cons_append, List.takeWhile_cons, if_pos ha, ih1]
      · rw [List.cons_append, List.dropWhile_cons, if_pos ha, ih2]

theorem mem_takeWhile_sat {p : Char → Bool} :
    ∀ (l : List Char), ∀ c ∈ l.takeWhile p, p c := by
  intro l
  induction l with
  | nil => simp
  | cons a as ih =>
      intro c hc
      rw [List.takeWhile_cons] at hc
      by_cases ha : p a
      · rw [if_pos ha] at hc
        rcases List.mem_cons.mp hc with heq | hc2
        · rw [heq]; exact ha
        · exact ih c hc2
      · rw [if_neg ha] at hc
        simp at hc

theorem dropWhile_head_not (p : Char → Bool) :
    ∀ (l : List Char) (c : Char) (cs : List Char),
      List.dropWhile p l = c :: cs → ¬ p c := by
  intro l
  induction l with
  | nil => intro c cs h; simp [List.dropWhile] at h
  | cons a as ih =>
      intro c cs h
      rw [List.dropWhile_cons] at h
      by_cases ha : p a
      · rw [if_pos ha] at h
        exact ih c cs h
      · rw [if_neg ha] at h
        obtain ⟨h1, _⟩ := List.cons.injEq a as c cs ▸ h
        rw [← h1]
        exact ha

theorem dropWhile_dropWhile (p : Char → Bool) :
    ∀ (l : List Char), List.dropWhile p (List.dropWhile p l) = List.dropWhile p l := by
  intro l
  induction l with
  | nil => rfl
  | cons a as ih =>
      rw [List.dropWhile_cons]
      by_cases ha : p a
      · rw [if_pos ha]; exact ih
      · rw [if_neg ha, List.dropWhile_cons, if_neg ha]

theorem pyStrip_no_leading (l : List Char) :
    (pyStrip l).dropWhile isPySpace = pyStrip l := by
  rcases hz : pyStrip l with _ | ⟨c, cs⟩
  · rfl
  · simp only [pyStrip] at hz
    have h0 : (l.dropWhile isPySpace).reverse.takeWhile isPySpace ++
        (l.dropWhile isPySpace).reverse.dropWhile isPySpace =
        (l.dropWhile isPySpace).reverse :=
      List.takeWhile_append_dropWhile _ _
    have h1 : l.dropWhile isPySpace =
        ((l.dropWhile isPySpace).reverse.dropWhile isPySpace).reverse ++
        ((l.dropWhile isPySpace).reverse.takeWhile isPySpace).reverse := by
      have h0r := congrArg List.reverse h0
      rw [List.reverse_append, List.reverse_reverse] at h0r
      exact h0r.symm
    rw [hz] at h1
    have hc : ¬ isPySpace c :=
      dropWhile_head_not isPySpace l c
        (cs ++ ((l.dropWhile isPySpace).reverse.takeWhile isPySpace).reverse)
        (by conv_lhs => rw [h1]
            simp)
    rw [List.dropWhile_cons, if_neg hc]

theorem pyStrip_idem (l : List Char) : pyStrip (pyStrip l) = pyStrip l := by
  have h1 := pyStrip_no_leading l
  conv_lhs => rw [show pyStrip (pyStrip l) =
    (((pyStrip l).dropWhile isPySpace).reverse.dropWhile isPySpace).reverse from rfl]
  rw [h1]
  have h2 : (pyStrip l).reverse = (l.dropWhile isPySpace).reverse.dropWhile isPySpace := by
    simp only [pyStrip, List.reverse_reverse]
  rw [h2, dropWhile_dropWhile]
  simp only [pyStrip]

theorem takeWhile_all {p : Char → Bool} (l : List Char) (h : ∀ c ∈ l, p c) :
    l.takeWhile p = l ∧ l.dropWhile p = [] := by
  have h2 := takeWhile_append_all l [] h (by intro c cs hc; simp at hc)
  rwa [List.append_nil] at h2

/-- Soundness of the maximal-run matcher: a decomposition in the grammar
forces the match with exactly those groups. -/
theorem isaTagMatch_of_decomp (s l1 ds l2 : List Char) (dash : Bool)
    (h : IsTagDecomp s l1 ds l2 dash) :
    isaTagMatch s = some (l1, ds, if l2 = [] then none else some l2) := by
  obtain ⟨hs, hl1, hl1a, hl1b, hds, hdsa, hdsb, hl2, hl2b⟩ := h
  obtain ⟨d0, ds', hds0⟩ : ∃ d0 ds', ds = d0 :: ds' := by
    cases ds with
    | nil => simp at hdsa
    | cons a as => exact ⟨a, as, rfl⟩
  have hd0 : isDigit09 d0 := hds d0 (by rw [hds0]; simp)
  have hhead2 : ∀ c cs, l2 = c :: cs → ¬ isDigit09 c := by
    intro c cs hc
    exact upper_not_digit (hl2 c (by rw [hc]; simp))
  have hhead1 : ∀ c cs, ((if dash then ['-'] else []) ++ (ds ++ l2)) = c :: cs →
      ¬ isUpperAZ c := by
    intro c cs hc
    cases dash with
    | false =>
        simp only [Bool.false_eq_true, if_false, List.nil_append, hds0,
          List.cons_append] at hc
        injection hc with hc1 _
        rw [← hc1]
        exact digit_not_upper hd0
    | true =>
        simp only [if_true, List.cons_append, List.nil_append] at hc
        injection hc with hc1 _
        rw [← hc1]
        decide
  have hstep1 := takeWhile_append_all l1 ((if dash then ['-'] else []) ++ (ds ++ l2)) hl1 hhead1
  have hstep3 := takeWhile_append_all ds l2 hds hhead2
  have hstep4 := takeWhile_all l2 hl2
  simp only [isaTagMatch]
  rw [hs, hstep1.1, hstep1.2]
  have hrest2 : (if ((if dash then ['-'] else []) ++ (ds ++ l2)).head? = some '-' then
      ((if dash then ['-'] else []) ++ (ds ++ l2)).tail
      else ((if dash then ['-'] else []) ++ (ds ++ l2))) = ds ++ l2 := by
    cases dash with
    | false =>
        simp only [Bool.false_eq_true, if_false, List.nil_append, hds0, List.cons_append,
          List.head?_cons]
        rw [if_neg]
        intro hx
        injection hx with hx1
        exact digit_ne_dash hd0 hx1
    | true =>
        simp only [if_true, List.cons_append, List.nil_append, List.head?_cons,
          List.tail_cons]
  rw [hrest2, hstep3.1, hstep3.2, hstep4.1, hstep4.2]
  rw [if_pos ⟨hl1a, hl1b, hdsa, hdsb, hl2b, rfl⟩]

/-- Completeness of the matcher: a successful match yields a decomposition in
the grammar. -/
theorem decomp_of_isaTagMatch (s l1 ds : List Char) (m : Option (List Char))
    (h : isaTagMatch s = some (l1, ds, m)) :
    ∃ dash, IsTagDecomp s l1 ds (m.getD []) dash := by
  simp only [isaTagMatch] at h
  set L1 := s.takeWhile isUpperAZ with hL1
  set R1 := s.dropWhile isUpperAZ with hR1
  set R2 := if R1.head? = some '-' then R1.tail else R1 with hR2
  set DS := R2.takeWhile isDigit09 with hDS
  set R3 := R2.dropWhile isDigit09 with hR3
  set L2 := R3.takeWhile isUpperAZ with hL2
  set R4 := R3.dropWhile isUpperAZ with hR4
  by_cases hcond : 1 ≤ L1.length ∧ L1.length ≤ 4 ∧ 1 ≤ DS.length ∧ DS.length ≤ 5 ∧
      L2.length ≤ 4 ∧ R4 = []
  case neg =>
    rw [if_neg hcond] at h
    exact Option.noConfusion h
  case pos =>
  rw [if_pos hcond] at h
  simp only [Option.some.injEq, Prod.mk.injEq] at h
  obtain ⟨h1, h2, h3⟩ := h
  have hgetD : m.getD [] = L2 := by
    by_cases hL2e : L2 = []
    · rw [if_pos hL2e] at h3
      rw [← h3, hL2e]
      rfl
    · rw [if_neg hL2e] at h3
      rw [← h3]
      rfl
  have hsplit1 : s = L1 ++ R1 := by
    rw [hL1, hR1]
    exact (List.takeWhile_append_dropWhile _ _).symm
  have hsplit2 : R2 = DS ++ R3 := by
    rw [hDS, hR3]
    exact (List.takeWhile_append_dropWhile _ _).symm
  have hsplit3 : R3 = L2 ++ R4 := by
    rw [hL2, hR4]
    exact (List.takeWhile_append_dropWhile _ _).symm
  have hR3L2 : R3 = L2 := by
    rw [hsplit3, hcond.2.2.2.2.2, List.append_nil]
  have hmemL1 : ∀ c ∈ L1, isUpperAZ c := by
    rw [hL1]; exact mem_takeWhile_sat s
  have hmemDS : ∀ c ∈ DS, isDigit09 c := by
    rw [hDS]; exact mem_takeWhile_sat R2
  have hmemL2 : ∀ c ∈ L2, isUpperAZ c := by
    rw [hL2]; exact mem_takeWhile_sat R3
  subst h1
  subst h2
  rw [hgetD]
  by_cases hdash : R1.head? = some '-'
  · rcases hR1c : R1 with _ | ⟨a, as⟩
    · rw [hR1c] at hdash
      simp at hdash
    · have ha : a = '-' := by
        rw [hR1c] at hdash
        simpa using hdash
      have hR2as : R2 = as := by
        rw [hR2, if_pos hdash, hR1c]
        rfl
      refine ⟨true, ?_, hmemL1, hcond.1, hcond.2.1, hmemDS, hcond.2.2.1, hcond.2.2.2.1,
        hmemL2, hcond.2.2.2.2.1⟩
      rw [hsplit1, hR1c, ha]
      have has : as = DS ++ L2 := by
        rw [← hR2as, hsplit2, hR3L2]
      rw [has]
      simp
  · have hR2R1 : R2 = R1 := by
      rw [hR2, if_neg hdash]
    refine ⟨false, ?_, hmemL1, hcond.1, hcond.2.1, hmemDS, hcond.2.2.1, hcond.2.2.2.1,
      hmemL2, hcond.2.2.2.2.1⟩
    rw [hsplit1, ← hR2R1, hsplit2, hR3L2]
    simp

/-- parse_isa_tag on any input whose normalized form decomposes in the
grammar: all structured fields are filled from the decomposition and rawTag
keeps the original input. -/
theorem parse_isa_tag_of_decomp (s : String) (l1 ds l2 : List Char) (dash : Bool)
    (h : IsTagDecomp ((pyStrip s.toList).map Char.toUpper) l1 ds l2 dash) :
    parse_isa_tag s = { rawTag := s, loopLetters := some (String.mk l1),
                        loopNo := some (digitsVal ds), modifiers := some l2,
                        isParsed := true } := by
  have hm := isaTagMatch_of_decomp _ l1 ds l2 dash h
  simp only [parse_isa_tag, hm]
  by_cases hl2 : l2 = []
  · subst hl2
    simp
  · simp only [if_neg hl2]

/-- parse_isa_tag on any input whose normalized form has no decomposition in
the grammar: only rawTag and isParsed = false are set. -/
theorem parse_isa_tag_unparsed (s : String)
    (h : ∀ l1 ds l2 dash, ¬ IsTagDecomp ((pyStrip s.toList).map Char.toUpper) l1 ds l2 dash) :
    parse_isa_tag s = { rawTag := s, isParsed := false } := by
  rcases hm : isaTagMatch ((pyStrip s.toList).map Char.toUpper) with _ | ⟨l1, ds, m⟩
  · simp only [parse_isa_tag, hm]
  · obtain ⟨dash, hd⟩ := decomp_of_isaTagMatch _ l1 ds m hm
    exact absurd hd (h l1 ds (m.getD []) dash)

/-- A list whose head fails the uppercase class admits no grammar
decomposition. -/
theorem no_decomp_of_head (s : List Char) (c : Char) (rest : List Char)
    (hs : s = c :: rest) (hc : ¬ isUpperAZ c) :
    ∀ l1 ds l2 dash, ¬ IsTagDecomp s l1 ds l2 dash := by
  intro l1 ds l2 dash hd
  obtain ⟨heq, hl1, hl1a, _, _, _, _, _, _⟩ := hd
  cases l1 with
  | nil => simp at hl1a
  | cons a as =>
      rw [hs] at heq
      injection heq with h1 _
      exact hc (by rw [h1]; exact hl1 a (by simp))

/-- The two normalizations agree: stripping an already-stripped input changes
nothing, so the structured fields of parse_isa_tag only depend on the
stripped form. -/
theorem parse_isa_tag_strip (s : String) :
    (parse_isa_tag s).loopLetters =
      (parse_isa_tag (String.mk (pyStrip s.toList))).loopLetters ∧
    (parse_isa_tag s).loopNo = (parse_isa_tag (String.mk (pyStrip s.toList))).loopNo ∧
    (parse_isa_tag s).modifiers =
      (parse_isa_tag (String.mk (pyStrip s.toList))).modifiers ∧
    (parse_isa_tag s).isParsed = (parse_isa_tag (String.mk (pyStrip s.toList))).isParsed := by
  have hnorm : (pyStrip (String.mk (pyStrip s.toList)).toList).map Char.toUpper =
      (pyStrip s.toList).map Char.toUpper := by
    rw [show (String.mk (pyStrip s.toList)).toList = pyStrip s.toList from rfl,
      pyStrip_idem]
  simp only [parse_isa_tag, hnorm]
  rcases isaTagMatch ((pyStrip s.toList).map Char.toUpper) with _ | ⟨l1, ds, m⟩
  · exact ⟨rfl, rfl, rfl, rfl⟩
  · exact ⟨rfl, rfl, rfl, rfl⟩

/-! Lemmas about the validator. -/

/-- Claim-side test for a rule-2 dangling issue aimed at a given edge id. -/
def isDanglingIssueFor (eid : String) (i : Issue) : Bool :=
  decide (i.severity = "warn") &&
    (decide (i.message = msgDanglingStart) || decide (i.message = msgDanglingEnd)) &&
    decide (i.targetId = some eid)

theorem rule2_mem_start :
    ∀ (es : List Edge) (c : Nat) (e : Edge), e ∈ es → pyTruthy e.endpoints.1 = false →
      ∃ i ∈ (rule2 es c).1, i.severity = "warn" ∧ i.message = msgDanglingStart ∧
        i.targetId = some e.id := by
  intro es
  induction es with
  | nil => intro c e he _; simp at he
  | cons e0 es ih =>
      intro c e he hf
      rcases List.mem_cons.mp he with heq | he2
      · rw [heq] at hf
        refine ⟨{ id := "issue_" ++ toString c, severity := "warn",
                  message := msgDanglingStart, targetId := some e0.id },
          ?_, rfl, rfl, by rw [heq]⟩
        simp [rule2, hf]
      · obtain ⟨i, hi, hp⟩ := ih _ e he2 hf
        refine ⟨i, ?_, hp⟩
        simp only [rule2, List.mem_append]
        exact Or.inr hi

theorem rule2_mem_end :
    ∀ (es : List Edge) (c : Nat) (e : Edge), e ∈ es → pyTruthy e.endpoints.2 = false →
      ∃ i ∈ (rule2 es c).1, i.severity = "warn" ∧ i.message = msgDanglingEnd ∧
        i.targetId = some e.id := by
  intro es
  induction es with
  | nil => intro c e he _; simp at he
  | cons e0 es ih =>
      intro c e he hf
      rcases List.mem_cons.mp he with heq | he2
      · rw [heq] at hf
        by_cases hb1 : pyTruthy e0.endpoints.1 = false
        · refine ⟨{ id := "issue_" ++ toString (c + 1), severity := "warn",
                    message := msgDanglingEnd, targetId := some e0.id },
            ?_, rfl, rfl, by rw [heq]⟩
          simp [rule2, hb1, hf]
        · have hb1t : pyTruthy e0.endpoints.1 = true := by
            revert hb1
            cases pyTruthy e0.endpoints.1 <;> simp
          refine ⟨{ id := "issue_" ++ toString c, severity := "warn",
                    message := msgDanglingEnd, targetId := some e0.id },
            ?_, rfl, rfl, by rw [heq]⟩
          simp [rule2, hb1t, hf]
      · obtain ⟨i, hi, hp⟩ := ih _ e he2 hf
        refine ⟨i, ?_, hp⟩
        simp only [rule2, List.mem_append]
        exact Or.inr hi

theorem rule1_count_zero (eid : String) :
    ∀ (es : List Edge) (c : Nat),
      (rule1 es c).1.countP (isDanglingIssueFor eid) = 0 := by
  have hm1 : ¬ ("Process line is missing a label/tag." = msgDanglingStart) := by decide
  have hm2 : ¬ ("Process line is missing a label/tag." = msgDanglingEnd) := by decide
  intro es
  induction es with
  | nil => intro c; rfl
  | cons e es ih =>
      intro c
      by_cases hb : (!(pyTruthy e.label) && decide (e.kind = "process")) = true
      · simp only [rule1, hb, if_true, List.countP_cons]
        rw [ih]
        simp [isDanglingIssueFor, hm1, hm2]
      · simp only [rule1, Bool.not_eq_true] at hb ⊢
        simp only [hb, Bool.false_eq_true, if_false]
        exact ih c

theorem rule3_count_zero (eid : String) :
    ∀ (ns : List Node) (c : Nat),
      (rule3 ns c).1.countP (isDanglingIssueFor eid) = 0 := by
  intro ns
  induction ns with
  | nil => intro c; rfl
  | cons n ns ih =>
      intro c
      rcases hc : n.confidence with _ | q
      · simp only [rule3, hc]
        exact ih c
      · simp only [rule3, hc]
        by_cases hb : (n.kind = "equipment" ∨ n.kind = "instrument") ∧ q < 3 / 4
        · rw [if_pos hb, List.countP_cons]
          rw [ih]
          simp [isDanglingIssueFor]
        · rw [if_neg hb]
          exact ih c

theorem rule2_count (eid : String) :
    ∀ (es : List Edge) (c : Nat),
      (rule2 es c).1.countP (isDanglingIssueFor eid) =
        (es.map (fun e => if e.id = eid then
          ((if pyTruthy e.endpoints.1 = false then 1 else 0) +
           (if pyTruthy e.endpoints.2 = false then 1 else 0)) else 0)).sum := by
  have hw : ("warn" : String) = "warn" := rfl
  have hss : msgDanglingStart = msgDanglingStart := rfl
  have hse : ¬ (msgDanglingStart = msgDanglingEnd) := by decide
  have hes : ¬ (msgDanglingEnd = msgDanglingStart) := by decide
  intro es
  induction es with
  | nil => intro c; rfl
  | cons e0 es ih =>
      intro c
      rcases hb1 : pyTruthy e0.endpoints.1 with _ | _ <;>
        rcases hb2 : pyTruthy e0.endpoints.2 with _ | _ <;>
        by_cases h0 : e0.id = eid <;>
        simp [rule2, hb1, hb2, h0, ih, isDanglingIssueFor, hse, hes, List.countP_cons,
          List.countP_append] <;> omega

theorem map_sum_zero_of_count_zero (eid : String) (f : Edge → Nat) :
    ∀ (es : List Edge), es.countP (fun e2 => decide (e2.id = eid)) = 0 →
      (es.map (fun e2 => if e2.id = eid then f e2 else 0)).sum = 0 := by
  intro es
  induction es with
  | nil => intro _; rfl
  | cons e0 es ih =>
      intro h
      rw [List.countP_cons] at h
      by_cases h0 : e0.id = eid
      · simp [h0] at h
      · simp only [h0, decide_False, if_false, Nat.add_zero] at h
        simp only [List.map_cons, List.sum_cons, if_neg h0, ih h, Nat.add_zero, Nat.zero_add]

theorem map_sum_unique_id (eid : String) (f : Edge → Nat) :
    ∀ (es : List Edge) (e : Edge), e ∈ es → e.id = eid →
      es.countP (fun e2 => decide (e2.id = eid)) = 1 →
      (es.map (fun e2 => if e2.id = eid then f e2 else 0)).sum = f e := by
  intro es
  induction es with
  | nil => intro e he; simp at he
  | cons e0 es ih =>
      intro e he heid hcount
      rw [List.countP_cons] at hcount
      by_cases h0 : e0.id = eid
      · have hc0 : es.countP (fun e2 => decide (e2.id = eid)) = 0 := by
          rw [if_pos (by simp [h0])] at hcount
          omega
        have he0 : e = e0 := by
          rcases List.mem_cons.mp he with heq | he2
          · exact heq
          · exfalso
            have hpos : 0 < es.countP (fun e2 => decide (e2.id = eid)) :=
              List.countP_pos_iff.mpr ⟨e, he2, by simp [heid]⟩
            omega
        rw [he0, List.map_cons, List.sum_cons, if_pos h0,
          map_sum_zero_of_count_zero eid f es hc0, Nat.add_zero]
      · have hc1 : es.countP (fun e2 => decide (e2.id = eid)) = 1 := by
          rw [if_neg (by simp [h0])] at hcount
          omega
        have he2 : e ∈ es := by
          rcases List.mem_cons.mp he with heq | he2
          · exfalso; rw [heq] at heid; exact h0 heid
          · exact he2
        rw [List.map_cons, List.sum_cons, if_neg h0, ih e he2 heid hc1, Nat.zero_add]

/-- The issue list produced by validate_graph, spelled out. -/
theorem validate_graph_eq (g : Graph) :
    (validate_graph g).2 =
      (rule1 g.edges 0).1 ++ (rule2 g.edges (rule1 g.edges 0).2).1 ++
        (rule3 g.nodes (rule2 g.edges (rule1 g.edges 0).2).2).1 := rfl

/-- A non-null resolved endpoint always references a node of the graph. -/
theorem endpointResolved_ref (nodes : List Node) (p : Int × Int) (slot : Option String)
    (h : EndpointResolved nodes p slot) :
    ∀ nid, slot = some nid → ∃ n ∈ nodes, n.id = nid := by
  intro nid hs
  rcases h with ⟨hn, _⟩ | ⟨n, hn, he, _, _⟩
  · rw [hn] at hs
    exact Option.noConfusion hs
  · rw [he] at hs
    injection hs with h2
    exact ⟨n, hn, h2⟩

/-! Lemmas about the interchange export. -/

theorem export_lines_count (g : Graph) (eid : String) :
    (to_dexpi_lite_json g).lines.countP (fun l => decide (l.id = eid)) =
      g.edges.countP (fun e => decide (e.id = eid)) := by
  simp only [to_dexpi_lite_json]
  rw [List.countP_map]
  rfl

theorem export_connections_count (g : Graph) (eid : String) :
    (to_dexpi_lite_json g).connections.countP (fun c => decide (c.line_id = eid)) =
      g.edges.countP (fun e => decide (e.id = eid) &&
        (pyTruthy e.endpoints.1 && pyTruthy e.endpoints.2)) := by
  simp only [to_dexpi_lite_json]
  induction g.edges with
  | nil => rfl
  | cons e0 es ih =>
      rcases hb : pyTruthy e0.endpoints.1 && pyTruthy e0.endpoints.2 with _ | _
      · simp only [List.filterMap_cons, hb, Bool.false_eq_true, if_false, List.countP_cons,
          Bool.and_false]
        rw [ih]
        simp
      · simp only [List.filterMap_cons, hb, if_true, List.countP_cons, Bool.and_true]
        rw [ih]

/-! Sample objects used by the witness theorems. -/

/-- A sample equipment node with center (0, 0). -/
def nW : Node := { id := "n1", kind := "equipment", bbox := { x := 0, y := 0, w := 0, h := 0 } }

/-- A sample text with center (3, 4), 5 px from the origin. -/
def tW : Text := { id := "t1", content := "TAG", bbox := { x := 3, y := 4, w := 0, h := 0 } }

/-- A sample two-point edge near the origin with unresolved endpoints. -/
def eW : Edge := { id := "line_0", kind := "process", polyline := [(0, 0), (1, 0)],
                   endpoints := (none, none) }

/-- A sample long edge with both endpoint slots null. -/
def eV : Edge := { id := "line_9", kind := "process", polyline := [(0, 0), (500, 0)],
                   endpoints := (none, none) }

/-- A graph holding only eV. -/
def gV : Graph := { edges := [eV] }

/-! The claims. -/

/-- C1: In every call to assemble, nodes are visited in the order
symbols ++ junctions; each node is assigned the content of the unassigned text
whose bounding-box center has minimum Euclidean distance to the node center,
only when that distance is strictly less than 100 px (a text at exactly 100 px
is never assigned); the assigned text is permanently removed from the pool so
no later node or edge can consume it, and ties break toward the first-seen
pool element.  The second conjunct identifies the node list of a successful
assemble run with the output of this stage. -/
theorem assemble_text_to_node_spec (symbols junctions : List Node) (texts : List Text) :
    NodeTagStep (symbols ++ junctions) texts
      (assignNodeTags (symbols ++ junctions) texts).1
      (assignNodeTags (symbols ++ junctions) texts).2 ∧
    ∀ (lines : List Edge) (g : Graph),
      assembleGraph symbols lines junctions texts = some g →
      g.nodes = (assignNodeTags (symbols ++ junctions) texts).1 := by
  refine ⟨assignNodeTags_spec _ _, ?_⟩
  intro lines g hg
  obtain ⟨es1, pool2, es2, h1, h2, h3⟩ := assembleGraph_inv symbols lines junctions texts g hg
  rw [h3]

/-- Witness for C1 at a one-node one-text instance. -/
theorem assemble_text_to_node_spec_witness :
    NodeTagStep ([nW] ++ []) [tW] (assignNodeTags ([nW] ++ []) [tW]).1
      (assignNodeTags ([nW] ++ []) [tW]).2 ∧
    ({ nodes := [{ nW with tag := some "TAG" }], edges := [], issues := [],
       texts := [tW] } : Graph).nodes = (assignNodeTags ([nW] ++ []) [tW]).1 :=
  ⟨(assemble_text_to_node_spec [nW] [] [tW]).1,
   (assemble_text_to_node_spec [nW] [] [tW]).2 []
     { nodes := [{ nW with tag := some "TAG" }], edges := [], issues := [], texts := [tW] }
     (by decide)⟩

/-- C2 counterexample: for an edge whose polyline has three points, with a
text at distance 0 from the first-last midpoint, assemble does not label the
edge — the tuple unpacking p1, p2 = edge.polyline raises ValueError, so no
Graph is produced at all. -/
theorem edge_label_three_point_counterexample :
    assembleGraph []
      [{ id := "line_0", kind := "process", polyline := [(0, 0), (2, 0), (4, 0)],
         endpoints := (none, none) }] []
      [{ id := "t2", content := "L", bbox := { x := 2, y := 0, w := 0, h := 0 } }] = none := by
  decide

/-- C2 (amended): the text-to-edge association step of assemble succeeds
exactly when every polyline has exactly two points; in that case each edge, in
order, takes its midpoint from the first and last (that is, the only two)
points of its polyline and consumes the minimum-distance unassigned text
strictly under 50 px as its label, first-seen tie-break, the text leaving the
pool. -/
theorem edge_label_two_point_spec (es : List Edge) (pool : List Text) :
    ((assignEdgeLabels es pool).isSome ↔ ∀ e ∈ es, e.polyline.length = 2) ∧
    (∀ es2 pool2, assignEdgeLabels es pool = some (es2, pool2) →
      EdgeLabelStep es pool es2 pool2) :=
  ⟨assignEdgeLabels_isSome_iff es pool, fun es2 pool2 h => assignEdgeLabels_spec es pool es2 pool2 h⟩

/-- Witness for C2 at a one-edge one-text instance: the text 5 px from the
midpoint becomes the label. -/
theorem edge_label_two_point_spec_witness :
    EdgeLabelStep [eW] [tW] [{ eW with label := some "TAG" }] [] :=
  (edge_label_two_point_spec [eW] [tW]).2 [{ eW with label := some "TAG" }] [] (by decide)

/-- C3 counterexample: an input edge with a three-point polyline (length at
least 2, as the claim allows) makes assemble raise instead of returning a
Graph. -/
theorem assemble_three_point_raises :
    (({ id := "line_1", kind := "process", polyline := [(0, 0), (5, 0), (10, 0)],
        endpoints := (none, none) } : Edge).polyline.length ≥ 2) ∧
    assembleGraph []
      [{ id := "line_1", kind := "process", polyline := [(0, 0), (5, 0), (10, 0)],
         endpoints := (none, none) }] [] [] = none := by
  decide

/-- C3 (amended): for every input whose edges all have polylines of exactly
two points, assemble raises no exception and returns a Graph; absent matches
are expressed by fields left null, never by an error. -/
theorem assemble_total_two_point (symbols : List Node) (lines : List Edge)
    (junctions : List Node) (texts : List Text)
    (h : ∀ e ∈ lines, e.polyline.length = 2) :
    ∃ g, assembleGraph symbols lines junctions texts = some g :=
  assembleGraph_isSome symbols lines junctions texts h

/-- Witness for C3 at a concrete one-node one-edge instance. -/
theorem assemble_total_two_point_witness :
    (∀ e ∈ [eW], e.polyline.length = 2) ∧
    ∃ g, assembleGraph [nW] [eW] [] [tW] = some g :=
  ⟨by decide, assemble_total_two_point [nW] [eW] [] [tW] (by decide)⟩

/-- C4: in a successful assemble run on perception edges (two-point polylines,
endpoint slots initially null as the line extractor produces them), every
output edge has each endpoint slot resolved independently against all nodes of
the graph with no exclusion: the slot carries the id of a globally
distance-minimal node when that minimum is strictly under 50 px and stays null
otherwise, and every non-null slot references an id present in the graph
nodes.  Both slots of one edge may resolve to the same node, as the witness
shows. -/
theorem assemble_endpoint_resolution_spec (symbols : List Node) (lines : List Edge)
    (junctions : List Node) (texts : List Text) (g : Graph)
    (hlen : ∀ e ∈ lines, e.polyline.length = 2)
    (hnull : ∀ e ∈ lines, e.endpoints = (none, none))
    (hg : assembleGraph symbols lines junctions texts = some g) :
    ∀ e ∈ g.edges, ∃ p q, e.polyline = [p, q] ∧
      EndpointResolved g.nodes (2 * p.1, 2 * p.2) e.endpoints.1 ∧
      EndpointResolved g.nodes (2 * q.1, 2 * q.2) e.endpoints.2 ∧
      (∀ nid, e.endpoints.1 = some nid ∨ e.endpoints.2 = some nid →
        ∃ n ∈ g.nodes, n.id = nid) := by
  intro e he
  obtain ⟨es1, pool2, es2, h1, h2, h3⟩ := assembleGraph_inv symbols lines junctions texts g hg
  subst h3
  have he2 : e ∈ es2 := he
  obtain ⟨e1, he1, hce⟩ := connectEdges_mem _ es1 es2 h2 e he2
  have hstep := assignEdgeLabels_spec lines _ es1 pool2 h1
  have hsh := edgeLabelStep_shape lines _ es1 pool2 hstep
  obtain ⟨e0, he0, hR⟩ := forall2_mem_right hsh e1 he1
  obtain ⟨p, q, hpq⟩ := List.length_eq_two.mp (hlen e0 he0)
  have hpq1 : e1.polyline = [p, q] := by rw [hR.2.2.1, hpq]
  have hep1 : e1.endpoints = (none, none) := by rw [hR.2.2.2]; exact hnull e0 he0
  obtain ⟨e2x, hce2, hid, hkind, hpl2, hlab, hres1, hres2⟩ :=
    connectEdge_spec (assignNodeTags (symbols ++ junctions) texts).1 e1 p q hpq1 hep1
  rw [hce] at hce2
  injection hce2 with heq
  subst heq
  refine ⟨p, q, by rw [hpl2, hpq1], hres1, hres2, ?_⟩
  intro nid hnid
  rcases hnid with hs | hs
  · exact endpointResolved_ref _ _ _ hres1 nid hs
  · exact endpointResolved_ref _ _ _ hres2 nid hs

/-- The edge of the graph assemble builds from nW and eW alone: both endpoint
slots resolve to the single node. -/
def eW4 : Edge := { eW with endpoints := (some "n1", some "n1") }

/-- The graph assemble builds from nW and eW alone. -/
def gW4 : Graph := { nodes := [nW], edges := [eW4] }

/-- Witness for C4: a short edge near a single node resolves both endpoint
slots to that same node. -/
theorem assemble_endpoint_resolution_spec_witness :
    ∃ p q, eW4.polyline = [p, q] ∧
      EndpointResolved gW4.nodes (2 * p.1, 2 * p.2) eW4.endpoints.1 ∧
      EndpointResolved gW4.nodes (2 * q.1, 2 * q.2) eW4.endpoints.2 ∧
      (∀ nid, eW4.endpoints.1 = some nid ∨ eW4.endpoints.2 = some nid →
        ∃ n ∈ gW4.nodes, n.id = nid) :=
  assemble_endpoint_resolution_spec [nW] [eW] [] [] gW4 (by decide) (by decide) (by decide)
    eW4 (by decide)

/-- C5 counterexample: the claim reads the normalization as uppercasing alone,
so on the input with a leading space it predicts no match and isParsed =
false; the code strips whitespace first and parses it. -/
theorem parse_tag_uppercase_only_counterexample :
    (parse_isa_tag " FIC-101").isParsed = true ∧
    ∀ l1 ds l2 dash, ¬ IsTagDecomp (" FIC-101".toList.map Char.toUpper) l1 ds l2 dash :=
  ⟨by decide, no_decomp_of_head _ ' ' "FIC-101".toList (by decide) (by decide)⟩

/-- C5 (amended): parse_isa_tag is a pure total function; after stripping
leading and trailing whitespace and uppercasing, a full anchored match of the
tag grammar yields isParsed = true with loopLetters the letter group, loopNo
the digit group read as an integer (leading zeros dropped), and modifiers the
optional suffix split into single letters (empty list when absent, never
null); with no match it returns isParsed = false, rawTag equal to the original
pre-normalization input and every other field null.  In particular FIC-101
parses as claimed and not_a_tag! does not parse. -/
theorem parse_tag_grammar_spec :
    (∀ (s : String) (l1 ds l2 : List Char) (dash : Bool),
      IsTagDecomp ((pyStrip s.toList).map Char.toUpper) l1 ds l2 dash →
      parse_isa_tag s = { rawTag := s, loopLetters := some (String.mk l1),
                          loopNo := some (digitsVal ds), modifiers := some l2,
                          isParsed := true }) ∧
    (∀ s : String,
      (∀ l1 ds l2 dash, ¬ IsTagDecomp ((pyStrip s.toList).map Char.toUpper) l1 ds l2 dash) →
      parse_isa_tag s = { rawTag := s, isParsed := false }) ∧
    parse_isa_tag "FIC-101" = { rawTag := "FIC-101", loopLetters := some "FIC",
                                loopNo := some 101, modifiers := some [],
                                isParsed := true } ∧
    parse_isa_tag "not_a_tag!" = { rawTag := "not_a_tag!", isParsed := false } :=
  ⟨parse_isa_tag_of_decomp, parse_isa_tag_unparsed, by decide, by decide⟩

/-- Witness for C5 at PSHH-12A, discharging the grammar hypothesis. -/
theorem parse_tag_grammar_spec_witness :
    parse_isa_tag "PSHH-12A" =
      { rawTag := "PSHH-12A", loopLetters := some (String.mk ['P', 'S', 'H', 'H']),
        loopNo := some (digitsVal ['1', '2']), modifiers := some ['A'],
        isParsed := true } :=
  parse_tag_grammar_spec.1 "PSHH-12A" ['P', 'S', 'H', 'H'] ['1', '2'] ['A'] true (by decide)

/-- C6: validate emits one warn issue targeting the edge id for each null
endpoint slot, independently — a null start slot yields a dangling-start
issue, a null end slot a dangling-end issue — and an edge with a unique id and
both endpoints null yields exactly two dangling issues. -/
theorem validate_dangling_endpoints_spec (g : Graph) (e : Edge) (he : e ∈ g.edges) :
    (e.endpoints.1 = none →
      ∃ i ∈ (validate_graph g).2, i.severity = "warn" ∧ i.message = msgDanglingStart ∧
        i.targetId = some e.id) ∧
    (e.endpoints.2 = none →
      ∃ i ∈ (validate_graph g).2, i.severity = "warn" ∧ i.message = msgDanglingEnd ∧
        i.targetId = some e.id) ∧
    (g.edges.countP (fun e2 => decide (e2.id = e.id)) = 1 → e.endpoints.1 = none →
      e.endpoints.2 = none →
      (validate_graph g).2.countP (isDanglingIssueFor e.id) = 2) := by
  refine ⟨?_, ?_, ?_⟩
  · intro h1
    obtain ⟨i, hi, hp⟩ := rule2_mem_start g.edges (rule1 g.edges 0).2 e he (by rw [h1]; rfl)
    refine ⟨i, ?_, hp⟩
    rw [validate_graph_eq]
    exact List.mem_append.mpr (Or.inl (List.mem_append.mpr (Or.inr hi)))
  · intro h2
    obtain ⟨i, hi, hp⟩ := rule2_mem_end g.edges (rule1 g.edges 0).2 e he (by rw [h2]; rfl)
    refine ⟨i, ?_, hp⟩
    rw [validate_graph_eq]
    exact List.mem_append.mpr (Or.inl (List.mem_append.mpr (Or.inr hi)))
  · intro hu h1 h2
    rw [validate_graph_eq, List.countP_append, List.countP_append,
      rule1_count_zero, rule3_count_zero, rule2_count]
    rw [map_sum_unique_id e.id _ g.edges e he rfl hu]
    rw [h1, h2]
    rfl

/-- Witness for C6 at a graph holding one doubly dangling edge. -/
theorem validate_dangling_endpoints_spec_witness :
    (validate_graph gV).2.countP (isDanglingIssueFor eV.id) = 2 :=
  (validate_dangling_endpoints_spec gV eV (by decide)).2.2 (by decide) rfl rfl

/-- C7: validate sets graph.issues to exactly the returned sequence, replacing
any pre-existing contents (the result does not depend on the incoming issues),
and leaves nodes, edges and texts unchanged. -/
theorem validate_frame_spec (g : Graph) :
    (validate_graph g).1.nodes = g.nodes ∧ (validate_graph g).1.edges = g.edges ∧
    (validate_graph g).1.texts = g.texts ∧
    (validate_graph g).1.issues = (validate_graph g).2 ∧
    ∀ pre, (validate_graph { g with issues := pre }).2 = (validate_graph g).2 :=
  ⟨rfl, rfl, rfl, rfl, fun _ => rfl⟩

/-- C8: validation is idempotent — running validate on the graph mutated by a
first run yields the same issue sequence, ids included, since the counter
restarts at zero on every call. -/
theorem validate_idempotent (g : Graph) :
    (validate_graph (validate_graph g).1).2 = (validate_graph g).2 := rfl

/-- C9 counterexample: an edge whose endpoint ids are both non-null, one being
the empty string, still produces no entry in connections, because the code
tests Python truthiness rather than non-nullness. -/
theorem export_empty_id_counterexample :
    (({ id := "line_0", kind := "process", polyline := [(0, 0), (10, 0)],
        endpoints := (some "", some "n1") } : Edge).endpoints.1 ≠ none ∧
     ({ id := "line_0", kind := "process", polyline := [(0, 0), (10, 0)],
        endpoints := (some "", some "n1") } : Edge).endpoints.2 ≠ none) ∧
    (to_dexpi_lite_json
      { edges := [{ id := "line_0", kind := "process", polyline := [(0, 0), (10, 0)],
                    endpoints := (some "", some "n1") }] }).connections = [] := by
  decide

/-- C9 (amended): the interchange export has one entry in lines for every
edge, one entry in connections exactly for the edges whose both endpoint ids
are non-null and non-empty (Python truthiness; an edge with any null endpoint
is silently excluded from connections but appears in lines), and an issues
section equal to graph.issues verbatim; the export reads the graph without
mutating it. -/
theorem export_sections_spec (g : Graph) :
    (∀ eid, (to_dexpi_lite_json g).lines.countP (fun l => decide (l.id = eid)) =
      g.edges.countP (fun e => decide (e.id = eid))) ∧
    (∀ eid, (to_dexpi_lite_json g).connections.countP (fun c => decide (c.line_id = eid)) =
      g.edges.countP (fun e => decide (e.id = eid) &&
        (pyTruthy e.endpoints.1 && pyTruthy e.endpoints.2))) ∧
    (to_dexpi_lite_json g).issues = g.issues :=
  ⟨export_lines_count g, export_connections_count g, rfl⟩

/-- C10: parse_isa_tag strips surrounding whitespace before matching: rawTag
keeps the original input while every structured field agrees with parsing the
stripped form; in particular two-sided padded lowercase fic-101 parses. -/
theorem parse_tag_strips_whitespace (s : String) :
    (parse_isa_tag s).rawTag = s ∧
    (parse_isa_tag s).loopLetters = (parse_isa_tag (String.mk (pyStrip s.toList))).loopLetters ∧
    (parse_isa_tag s).loopNo = (parse_isa_tag (String.mk (pyStrip s.toList))).loopNo ∧
    (parse_isa_tag s).modifiers = (parse_isa_tag (String.mk (pyStrip s.toList))).modifiers ∧
    (parse_isa_tag s).isParsed = (parse_isa_tag (String.mk (pyStrip s.toList))).isParsed ∧
    parse_isa_tag "  fic-101 " =
      { rawTag := "  fic-101 ", loopLetters := some "FIC", loopNo := some 101,
        modifiers := some [], isParsed := true } := by
  have h := parse_isa_tag_strip s
  have hraw : (parse_isa_tag s).rawTag = s := by
    rcases hm : isaTagMatch ((pyStrip s.toList).map Char.toUpper) with _ | ⟨l1, ds, m⟩ <;>
      simp only [parse_isa_tag, hm]
  exact ⟨hraw, h.1, h.2.1, h.2.2.1, h.2.2.2, by decide⟩

end Pid
